import Mathlib

/-!
Shallow embedding of the corgi automatic-differentiation core
(src/src/array.rs and src/src/array/image.rs) and proofs about it.

Conventions of the embedding:
* `Float` (the numeric scalar of the source, a real type alias) is modelled
  by `Int`, so every arithmetic identity is exact and decidable.
* an n-d array value is `Arr`: its `dimensions` and flat row-major `values`,
  exactly the two fields the source's `PartialEq` compares.
* a Rust `panic` (out-of-bounds `Index`, `unwrap` of an empty option,
  `await_results` on an end node, send on a closed channel) is modelled by
  `Option`: `none` means the call panics / does not return normally.
* `usize` subtraction that the source only performs under a guard that makes
  it safe is modelled by truncating `Nat` subtraction, which agrees with it
  in every guarded position.
-/

namespace Corgi

/-- An n-dimensional array value: `dimensions` and the dense row-major
`values`, as in `struct Array` of src/src/array.rs.  Equality is the
source's `PartialEq`: dimensions and values compared element-wise. -/
structure Arr where
  dimensions : List Nat
  values : List Int
deriving DecidableEq, Repr

/-- Embedding of `add_values` (src/src/array.rs): element-wise sum.
Rust's `zip` truncates to the shorter iterator, as does `List.zipWith`. -/
def add_values (a b : List Int) : List Int := List.zipWith (fun x y => x + y) a b

/-- Embedding of `mul_values` (src/src/array.rs): element-wise product. -/
def mul_values (a b : List Int) : List Int := List.zipWith (fun x y => x * y) a b

/-- Embedding of `impl Index<usize> for Array`: flat indexing, which panics
(`none`) when the index is out of bounds. -/
def Arr.index (a : Arr) (i : Nat) : Option Int := a.values[i]?

/-- Embedding of `flatten_indices_unchecked` (src/src/array.rs): row-major
flattening `fold(first, |acc, (i, d)| acc * d + i)` over the remaining
indices zipped with `dimensions.skip(1)`.  The source unwraps the first
index; it is never called with an empty index list, and the empty case is
mapped to 0. -/
def flatten_indices_unchecked (indices : List Nat) (dims : List Nat) : Nat :=
  match indices with
  | [] => 0
  | f :: rest => ((rest.zip (dims.drop 1)).foldl (fun acc p => acc * p.2 + p.1) f)

/-- Embedding of `Array::matmul_flat` (src/src/array.rs): writes the
`output_rows x output_cols` block at `output_offset` into `vals`, reading
both operands at `offset` with the transpose-dependent strides.  Reads go
through the panicking `Index` impl, hence the `Option`. -/
def matmul_flat (vals : List Int) (output_rows output_cols sum_len offset output_offset : Nat)
    (a b : Arr) (a_t b_t : Bool) : Option (List Int) :=
  (List.range output_rows).foldlM (fun vs r =>
    (List.range output_cols).foldlM (fun vs2 j => do
      let sum ← (List.range sum_len).foldlM (fun s k => do
        let x ← a.index (offset + if a_t then k * output_rows + r else r * sum_len + k)
        let y ← b.index (offset + if b_t then j * sum_len + k else k * output_cols + j)
        pure (s + x * y)) (0 : Int)
      pure (vs2.set (output_offset + r * output_cols + j) sum)) vs) vals

/-- Effective output row count of the first matmul operand
(src/src/array.rs line 171): 1 for rank < 2, else the last or second-last
axis depending on the transpose flag. -/
def effRows (a : Arr) (a_t : Bool) : Nat :=
  if a.dimensions.length < 2 then 1
  else a.dimensions.getD (a.dimensions.length - if a_t then 1 else 2) 0

/-- Effective output column count of the second matmul operand
(src/src/array.rs line 173). -/
def effCols (b : Arr) (b_t : Bool) : Nat :=
  if b.dimensions.length < 2 then 1
  else b.dimensions.getD (b.dimensions.length - if b_t then 2 else 1) 0

/-- Contraction length, taken from the first operand only
(src/src/array.rs line 175). -/
def sumLen (a : Arr) (a_t : Bool) : Nat :=
  if a.dimensions.length < 2 && a_t then 1
  else a.dimensions.getD (a.dimensions.length - if a_t then 2 else 1) 0

/-- One step of the batch-index odometer of `matmul_values`
(src/src/array.rs lines 191-199), processing digits from the right:
a digit equal to `dim - 1` wraps to 0 and carries; otherwise it is
incremented and the loop breaks.  Digits are paired with the leading
dimensions of the first operand. -/
def bumpRev : List Nat → List Nat → List Nat
  | [], _ => []
  | l, [] => l
  | x :: xs, d :: ds => if x = d - 1 then 0 :: bumpRev xs ds else (x + 1) :: xs

/-- Odometer update on front-aligned index/dimension lists. -/
def bumpIndices (dims idx : List Nat) : List Nat :=
  (bumpRev idx.reverse ((dims.take idx.length).reverse)).reverse

/-- Embedding of `Array::matmul_values` (src/src/array.rs): batch loop over
the leading axes of the first operand, one `matmul_flat` block per batch
index.  The source performs no inner-dimension checking (its check is
commented out under a `TODO fix`); a shape mismatch either reads out of
bounds (a panic, `none`) or silently contracts over the first operand's
inner length. -/
def matmul_values (a b : Arr) (a_t b_t : Bool) : Option Arr := do
  let ra := a.dimensions.length
  let rb := b.dimensions.length
  let indices0 : List Nat := List.replicate (min ra rb - 2) 0
  let output_rows := effRows a a_t
  let output_cols := effCols b b_t
  let sum_len := sumLen a a_t
  let output_dimensions : List Nat :=
    a.dimensions.take indices0.length ++
      (if output_rows = 1 then [output_cols] else [output_rows, output_cols])
  let output_length := output_dimensions.foldl (fun acc x => acc * x) 1
  let product := (a.dimensions.reverse.drop 2).foldl (fun acc x => acc * x) 1
  let st ← (List.range product).foldlM
    (fun (st : List Int × List Nat) _ => do
      let vals' ← matmul_flat st.1 output_rows output_cols sum_len
        (flatten_indices_unchecked (st.2 ++ [0, 0]) a.dimensions)
        (flatten_indices_unchecked (st.2 ++ [0, 0]) output_dimensions)
        a b a_t b_t
      pure (vals', bumpIndices a.dimensions st.2))
    (List.replicate output_length (0 : Int), indices0)
  pure ⟨output_dimensions, st.1⟩

/-!
The computation graph of src/src/array.rs.  `struct Array` shares `children`,
`consumer_count`, `tx` and `gradient` through `Arc<Mutex<..>>`, so the same
node can be reached along several paths; the embedding gives every node an
identity `NodeId` (its position in a `Store`) and keeps the mutable fields in
a separate backward-pass state `BS`.  Construction order means every child id
is smaller than its parent's id.

The only `backward_op` closures the source ever builds are the ones of `Add`,
`Mul` and `matmul_values` (with its two captured transpose flags), so the
`dyn Fn` field is embedded as the tagged variant `BOp` plus the interpreter
`applyBOp` whose three cases are the three closure bodies.
-/

/-- Tags for the three `backward_op` closures of src/src/array.rs. -/
inductive BOp where
  | add : BOp
  | mul : BOp
  | matmul (a_t b_t : Bool) : BOp
deriving DecidableEq, Repr

/-- A node of the computation graph: the `Array` fields that are fixed at
construction time (`dimensions`, `values`, `children`, `backward_op`). -/
structure Node where
  dimensions : List Nat
  values : List Int
  children : List Nat
  backward_op : Option BOp
deriving DecidableEq, Repr

/-- A computation graph: nodes indexed by `NodeId` in construction order. -/
abbrev Store := List Node

/-- Interpreter for the three `backward_op` closures (children, upstream
gradient) -> per-child deltas:
* `Add` (src/src/array.rs line 401): both children receive an array with the
  upstream's dimensions and values;
* `Mul` (line 414): child i receives the other child's values times the
  upstream values, under child i's dimensions;
* `matmul` (lines 202-216): the four transpose-dependent `matmul_values`
  projections, whose reads can panic (`none`).
`Vec` indexing of the captured children panics when absent. -/
def applyBOp : BOp → List Arr → Arr → Option (List Arr)
  | .add, _, x => some [⟨x.dimensions, x.values⟩, ⟨x.dimensions, x.values⟩]
  | .mul, c, x => do
      let c0 ← getElem? c 0
      let c1 ← getElem? c 1
      pure [⟨c0.dimensions, mul_values c1.values x.values⟩,
            ⟨c1.dimensions, mul_values c0.values x.values⟩]
  | .matmul a_t b_t, c, x => do
      let c0 ← getElem? c 0
      let c1 ← getElem? c 1
      let delta_a ← if a_t then matmul_values c1 x b_t true
                    else matmul_values x c1 false (!b_t)
      let delta_b ← if b_t then matmul_values x c0 true a_t
                    else matmul_values c0 x (!a_t) false
      pure [delta_a, delta_b]

/-- The value carried by a node, as handed to a `backward_op`. -/
def nodeArr (n : Node) : Arr := ⟨n.dimensions, n.values⟩

/-- Embedding of `Array::propagate_consumers` (src/src/array.rs lines
228-233): a depth-first walk that, for every edge traversed, increments the
child's `consumer_count` and recurses into the child — re-traversing a
child's whole subtree once per edge that reaches it.  `fuel` bounds the
recursion depth; every theorem below instantiates it large enough that it is
never exhausted. -/
def propagate (store : Store) : Nat → List Nat → Nat → Option (List Nat)
  | 0, _, _ => none
  | fuel + 1, counts, n => do
      let node ← store[n]?
      node.children.foldlM
        (fun cs c => propagate store fuel (cs.set c (cs.getD c 0 + 1)) c) counts

/-- The mutable state of a backward pass: per-node `consumer_count`,
per-node accumulator of the worker owning the node's channel (`none` while no
`tx` is installed), and per-node `gradient` slot. -/
structure BS where
  counts : List Nat
  pend : List (Option (List Int))
  grads : List (Option Arr)
deriving DecidableEq, Repr

/-- The state of a freshly constructed graph: every `consumer_count` is 0,
no channel is installed, every `gradient` slot is `None` — the field values
`Arrays::new` writes (src/src/array.rs lines 72-76). -/
def initBS (store : Store) : BS :=
  ⟨List.replicate store.length 0, List.replicate store.length none,
    List.replicate store.length none⟩

/-- Embedding of `delta.iter_mut().zip(x).for_each(|(s, x)| *s += *x)`
(src/src/array.rs lines 249-251): the first `min` positions of the
accumulator are incremented, its tail is kept. -/
def sumAcc (acc x : List Int) : List Int :=
  List.zipWith (fun s v => s + v) acc x ++ acc.drop x.length

/-- The pending work items of the backward pass: visiting a node with a
gradient (`Array::backward` with `Some`), delivering one delta to one child
(the send-or-spawn step plus the matching `await_results` bookkeeping), and
delivering a list of deltas to the children in order. -/
inductive Task where
  | fire (n : Nat) (g : Arr) : Task
  | deliver (c : Nat) (d : Arr) : Task
  | dlist (l : List (Nat × Arr)) : Task

/-- Sequential collapse of the backward traversal of src/src/array.rs
(lines 240-317).  The threaded code lets each newly discovered child's worker
block on a channel until `consumer_count` many deltas arrived, and a visit
joins every worker it spawned; because delta accumulation is commutative and
a node fires exactly when its last delta arrives, the final state does not
depend on the interleaving, and the depth-first order used here computes it.

* `fire n g`: `backward(Some(g))` on node `n` — run the node's
  `backward_op` on its children, deliver the per-child deltas, then write
  `gradient = Some(g)`; a node with children but no op panics (`none`).
* `deliver c d`: hand one delta to child `c`.  With no channel installed and
  `consumer_count == 0` the spawned worker panics in `await_results`
  (`none`); otherwise the delta is accumulated and the count decremented,
  and the child fires when the count reaches 0 (the fired delta is rebuilt
  from the child's own `dimensions`).  A delta arriving for a node whose
  worker already fired (count 0, channel installed) is a send on a closed
  channel (`none`).  A node whose count stays positive when `run` returns
  models a worker blocked forever: the real `backward` never returns.
-/
def run (store : Store) : Nat → Task → BS → Option BS
  | 0, _, _ => none
  | fuel + 1, .fire n g, s => do
      let node ← store[n]?
      match node.backward_op with
      | some bop => do
          let cs ← node.children.mapM (fun c => (store[c]?).map nodeArr)
          let deltas ← applyBOp bop cs g
          let s' ← run store fuel (.dlist (node.children.zip deltas)) s
          pure { s' with grads := s'.grads.set n (some g) }
      | none =>
          if node.children.length ≠ 0 then none
          else pure { s with grads := s.grads.set n (some g) }
  | fuel + 1, .deliver c d, s =>
      match s.pend.getD c none with
      | none =>
          let k := s.counts.getD c 0
          if k = 0 then none
          else
            let s' : BS := { s with counts := s.counts.set c (k - 1),
                                    pend := s.pend.set c (some d.values) }
            if k - 1 = 0 then do
              let node ← store[c]?
              run store fuel (.fire c ⟨node.dimensions, d.values⟩) s'
            else pure s'
      | some acc =>
          let k := s.counts.getD c 0
          if k = 0 then none
          else
            let acc' := sumAcc acc d.values
            let s' : BS := { s with counts := s.counts.set c (k - 1),
                                    pend := s.pend.set c (some acc') }
            if k - 1 = 0 then do
              let node ← store[c]?
              run store fuel (.fire c ⟨node.dimensions, acc'⟩) s'
            else pure s'
  | _ + 1, .dlist [], s => pure s
  | fuel + 1, .dlist ((c, d) :: rest), s => do
      let s' ← run store fuel (.deliver c d) s
      run store fuel (.dlist rest) s'

/-- Embedding of `Array::backward` (src/src/array.rs lines 270-317): with a
seed the visit starts directly; with `None` the graph is first prepared by
`propagate_consumers` and the seed is the all-ones array of the root's
shape. -/
def backward (store : Store) (fuel : Nat) (s : BS) (n : Nat) (delta : Option Arr) :
    Option BS :=
  match delta with
  | some x => run store fuel (.fire n x) s
  | none => do
      let counts ← propagate store fuel s.counts n
      let node ← store[n]?
      run store fuel (.fire n ⟨node.dimensions, List.replicate node.values.length 1⟩)
        { s with counts := counts }

/-- A leaf `Array`: user data, no children, no `backward_op`. -/
def leaf (d : List Nat) (v : List Int) : Node := ⟨d, v, [], none⟩

/-- Default node for store lookups in graph constructors (never hit on the
stores built below). -/
def dummyNode : Node := ⟨[], [], [], none⟩

/-- Graph constructor for `&a + &b` (src/src/array.rs lines 395-406): the
result takes `a`'s dimensions, the element-wise sum as values, `[a, b]` as
children and the `Add` closure as `backward_op`. -/
def addOp (store : Store) (i j : Nat) : Store :=
  let a := store.getD i dummyNode
  let b := store.getD j dummyNode
  store ++ [⟨a.dimensions, add_values a.values b.values, [i, j], some .add⟩]

/-- Graph constructor for `&a * &b` (src/src/array.rs lines 408-420). -/
def mulOp (store : Store) (i j : Nat) : Store :=
  let a := store.getD i dummyNode
  let b := store.getD j dummyNode
  store ++ [⟨a.dimensions, mul_values a.values b.values, [i, j], some .mul⟩]

/-- Graph constructor for `Array::matmul` (src/src/array.rs lines 223-225):
`matmul_values` with `has_backward = true`, so the result carries `[a, b]`
as children and the captured-flag matmul closure; the forward value
computation itself can panic. -/
def matmulOp (store : Store) (i j : Nat) (a_t b_t : Bool) : Option Store := do
  let a := store.getD i dummyNode
  let b := store.getD j dummyNode
  let r ← matmul_values (nodeArr a) (nodeArr b) a_t b_t
  pure (store ++ [⟨r.dimensions, r.values, [i, j], some (.matmul a_t b_t)⟩])

/-- Number of parent edges of node `c` in a store: how many child slots of
other nodes refer to it. -/
def parent_edges (store : Store) (c : Nat) : Nat :=
  (store.map (fun n => n.children.count c)).sum

/-- Embedding of `Array::gradient` (src/src/array.rs lines 126-128): the
gradient slot is `unwrap`ped, so an empty slot panics (`none`). -/
def gradientCall (s : BS) (n : Nat) : Option Arr := s.grads.getD n none

/-!
The image operations of src/src/array/image.rs.  They are written against a
newer `Array` API whose `sliced_op` helper is not part of the sources at
hand; only its call sites are.  `sliced_op` is therefore modelled from the
spec (leading axes are batch axes, the kernel maps each trailing input slice
to one output slice), while the two `SlicedOp` kernels themselves are
translated directly from the source closures.
-/

/-- Kernel of `Array::unroll_blocks` (src/src/array/image.rs lines 36-56):
for every stride position `(r, c)`, depth `k` and filter position `(m, n)`,
in that loop order, append the input value at
`col_index + image_cols * (row_index + image_rows * k)`.  The source writes
the output sequentially, so the nested loops are nested `flatMap`s. -/
def unrollSlice (sr sc fr fc d rows cols : Nat) (input : List Int) : List Int :=
  (List.range ((rows - fr) / sr + 1)).flatMap (fun r =>
    (List.range ((cols - fc) / sc + 1)).flatMap (fun c =>
      (List.range d).flatMap (fun k =>
        (List.range fr).flatMap (fun m =>
          (List.range fc).map (fun n =>
            input.getD ((n + sc * c) + cols * ((m + sr * r) + rows * k)) 0)))))

/-- The write list of the `Array::roll_blocks` kernel
(src/src/array/image.rs lines 118-141): for depth `i`, unrolled row `j` and
position `k` inside the filter, the pair of the output index
`stride_offset + filter_offset + depth_offset` and the input value at
`k + skipped + unrolled_size * image_depth * j`. -/
def rollWrites (d rows cols sc fc fr uc us : Nat) (input : List Int) :
    List (Nat × Int) :=
  let csc := (cols - fc) / sc + 1
  (List.range d).flatMap (fun i =>
    (List.range uc).flatMap (fun j =>
      (List.range us).map (fun k =>
        (sc * (j % csc) + cols * (j / csc) + ((k % fc) + cols * (k / fc)) +
           i * (rows * cols),
         input.getD (k + i * (fr * fc) + us * d * j) 0))))

/-- Kernel of `Array::roll_blocks`: the writes are performed in loop order
into a zeroed output slice; a later write to the same index overwrites an
earlier one, exactly as `output_slice[output_index] = ...` does. -/
def rollSlice (d rows cols sc fc fr uc us : Nat) (input : List Int) : List Int :=
  (rollWrites d rows cols sc fc fr uc us input).foldl
    (fun acc p => acc.set p.1 p.2) (List.replicate (d * (rows * cols)) 0)

/-- Modelled from the spec: the accumulate-on-overlap scatter the spec's
description of `roll_blocks` asks for ("allowing overlapping writes to
accumulate"), identical to `rollSlice` except that each write adds to the
cell instead of replacing it.  Used only to exhibit the divergence between
the source and the spec. -/
def rollAccumSlice (d rows cols sc fc fr uc us : Nat) (input : List Int) : List Int :=
  (rollWrites d rows cols sc fc fr uc us input).foldl
    (fun acc p => acc.set p.1 (acc.getD p.1 0 + p.2)) (List.replicate (d * (rows * cols)) 0)

/-- Modelled from the spec: `Array::sliced_op`, which is called by
src/src/array/image.rs but whose definition is not among the sources.  Per
the spec the leading axes are batch axes: the kernel is applied to each
trailing slice of `len` values in order and the output slices are
concatenated. -/
def slicedMap (op : List Int → List Int) (len : Nat) : Nat → List Int → List Int
  | 0, _ => []
  | b + 1, v => op (v.take len) ++ slicedMap op len b (v.drop len)

/-- Embedding of `Array::unroll_blocks` (src/src/array/image.rs lines 4-87),
value part: the last three axes `(depth, rows, cols)` are unrolled into a
`(row_stride_count * col_stride_count, depth * filter_rows * filter_cols)`
matrix per batch index. -/
def unroll_blocks (image : Arr) (stride filter : Nat × Nat) : Arr :=
  let n := image.dimensions.length
  let d := image.dimensions.getD (n - 3) 0
  let rows := image.dimensions.getD (n - 2) 0
  let cols := image.dimensions.getD (n - 1) 0
  let rsc := (rows - filter.1) / stride.1 + 1
  let csc := (cols - filter.2) / stride.2 + 1
  let uc := rsc * csc
  let us := filter.1 * filter.2
  let outDims := image.dimensions.take (n - 3) ++ [uc, d * us]
  let batch := (image.dimensions.take (n - 3)).foldl (fun acc x => acc * x) 1
  ⟨outDims,
   slicedMap (unrollSlice stride.1 stride.2 filter.1 filter.2 d rows cols)
     (d * (rows * cols)) batch image.values⟩

/-- Embedding of `Array::roll_blocks` (src/src/array/image.rs lines 89-171),
value part: each batch slice of the unrolled matrix is scattered back into a
`(depth, rows, cols)` image; overlapping patch writes overwrite. -/
def roll_blocks (unrolled : Arr) (imageDims : Nat × Nat × Nat)
    (stride filter : Nat × Nat) : Arr :=
  let n := unrolled.dimensions.length
  let d := imageDims.1
  let rows := imageDims.2.1
  let cols := imageDims.2.2
  let uc := unrolled.dimensions.getD (n - 2) 0
  let us := unrolled.dimensions.getD (n - 1) 0 / d
  let outDims := unrolled.dimensions.take (n - 2) ++ [d, rows, cols]
  let batch := (unrolled.dimensions.take (n - 2)).foldl (fun acc x => acc * x) 1
  ⟨outDims,
   slicedMap (rollSlice d rows cols stride.2 filter.2 filter.1 uc us)
     (uc * unrolled.dimensions.getD (n - 1) 0) batch unrolled.values⟩

/-- Modelled from the spec: `roll_blocks` with accumulating writes — the
behaviour §4.4 of the spec attributes to the source. -/
def rollAccum_blocks (unrolled : Arr) (imageDims : Nat × Nat × Nat)
    (stride filter : Nat × Nat) : Arr :=
  let n := unrolled.dimensions.length
  let d := imageDims.1
  let rows := imageDims.2.1
  let cols := imageDims.2.2
  let uc := unrolled.dimensions.getD (n - 2) 0
  let us := unrolled.dimensions.getD (n - 1) 0 / d
  let outDims := unrolled.dimensions.take (n - 2) ++ [d, rows, cols]
  let batch := (unrolled.dimensions.take (n - 2)).foldl (fun acc x => acc * x) 1
  ⟨outDims,
   slicedMap (rollAccumSlice d rows cols stride.2 filter.2 filter.1 uc us)
     (uc * unrolled.dimensions.getD (n - 1) 0) batch unrolled.values⟩

/-- Value part of `Array::expand_conv` (src/src/array/image.rs lines
174-197): transform `(.., output_rows * output_cols, filter_count)` to
`(.., filter_count, row_stride_count, col_stride_count)` by the sequential
copy `result[result_index++] = values[k + filter_count * i]`. -/
def expand_conv_values (a : Arr) (strideCounts : Nat × Nat) : Arr :=
  let filter_count := a.dimensions.getD (a.dimensions.length - 1) 0
  let values_size := a.values.length
  let skip_size := values_size / filter_count
  let vals := (List.range filter_count).flatMap (fun k =>
    (List.range skip_size).map (fun i => a.values.getD (k + filter_count * i) 0))
  let outDims := a.dimensions.take (a.dimensions.length - 2) ++
    [filter_count, strideCounts.1, strideCounts.2]
  ⟨outDims, vals⟩

/-!
The tracked-graph layer of src/src/array/image.rs.  Its operators guard on
`is_tracked` and attach `BackwardOp` closures of shape
`(children, tracked_flags, delta) -> per-child Option<Array>`; the `Array`
fields they use (`is_tracked`, `tracked()`, `with_backward_op` on this newer
API, `reshape`, and the tracked element-wise/matmul operators) belong to the
newer core that is not among the sources, and are modelled from the spec
(§4.2, §4.3, §4.5, §4.7).  The `unroll_blocks` / `roll_blocks` /
`expand_conv` tracking guards and closures are translated from
src/src/array/image.rs itself.
-/

/-- Tags for the tracked-layer `backward_op` closures, with their captured
parameters: `unrollB` captures image, stride and filter dimensions
(src/src/array/image.rs lines 71-82), `rollB` captures stride and filter
(lines 156-166), `expandB` captures `values_size`, `filter_count` and
`skip_size` (lines 202-216); `addB`, `mulB`, `matmulB`, `reshapeB` are
modelled from the spec. -/
inductive TBOp where
  | addB : TBOp
  | mulB : TBOp
  | matmulB (a_t b_t : Bool) : TBOp
  | reshapeB (origDims : List Nat) : TBOp
  | unrollB (imageDims : Nat × Nat × Nat) (stride filter : Nat × Nat) : TBOp
  | rollB (stride filter : Nat × Nat) : TBOp
  | expandB (values_size filter_count skip_size : Nat) : TBOp
deriving DecidableEq, Repr

/-- A tracked-layer array: its value, its `is_tracked` flag, and the graph
fields the operators attach. -/
inductive TArr where
  | mk (arr : Arr) (tracked : Bool) (children : List TArr) (bop : Option TBOp) : TArr

/-- The value of a tracked-layer array. -/
def TArr.arr : TArr → Arr
  | .mk a _ _ _ => a

/-- The `is_tracked` flag. -/
def TArr.tracked : TArr → Bool
  | .mk _ t _ _ => t

/-- The children attached by the operator that produced this array. -/
def TArr.children : TArr → List TArr
  | .mk _ _ c _ => c

/-- The attached `backward_op`, if any. -/
def TArr.bop : TArr → Option TBOp
  | .mk _ _ _ b => b

/-- Interpreter for the tracked-layer `backward_op` closures: given the
children values, the per-child tracked flags and the upstream delta, produce
the per-child optional gradients; `none` in a slot severs the edge of an
untracked operand.  `unrollB`, `rollB` and `expandB` are the closures of
src/src/array/image.rs; the rest are modelled from the spec. -/
def applyTBOp : TBOp → List Arr → List Bool → Arr → Option (List (Option Arr))
  | .addB, _, t, x =>
      some [if t.getD 0 false then some ⟨x.dimensions, x.values⟩ else none,
            if t.getD 1 false then some ⟨x.dimensions, x.values⟩ else none]
  | .mulB, c, t, x => do
      let c0 ← getElem? c 0
      let c1 ← getElem? c 1
      pure [if t.getD 0 false then some ⟨c0.dimensions, mul_values c1.values x.values⟩ else none,
            if t.getD 1 false then some ⟨c1.dimensions, mul_values c0.values x.values⟩ else none]
  | .matmulB a_t b_t, c, t, x => do
      let c0 ← getElem? c 0
      let c1 ← getElem? c 1
      let delta_a ← if t.getD 0 false then
          (if a_t then matmul_values c1 x b_t true
           else matmul_values x c1 false (!b_t)).map some
        else pure none
      let delta_b ← if t.getD 1 false then
          (if b_t then matmul_values x c0 true a_t
           else matmul_values c0 x (!a_t) false).map some
        else pure none
      pure [delta_a, delta_b]
  | .reshapeB origDims, _, t, x =>
      some [if t.getD 0 false then some ⟨origDims, x.values⟩ else none]
  | .unrollB imageDims stride filter, _, t, x =>
      some [if t.getD 0 false then some (roll_blocks x imageDims stride filter) else none]
  | .rollB stride filter, _, t, x =>
      some [if t.getD 0 false then some (unroll_blocks x stride filter) else none]
  | .expandB values_size filter_count skip_size, c, _, x => do
      let c0 ← getElem? c 0
      let writes := (List.range filter_count).flatMap (fun k =>
        (List.range skip_size).map (fun i =>
          (k + filter_count * i, x.values.getD (k * skip_size + i) 0)))
      pure [some ⟨c0.dimensions,
        writes.foldl (fun acc p => acc.set p.1 p.2) (List.replicate values_size 0)⟩]

/-- Modelled from the spec: the tracked element-wise sum (§4.2, §4.5) — the
raw output when every input is untracked, otherwise children and the add
projection attached. -/
def addT (a b : TArr) : TArr :=
  let r : Arr := ⟨a.arr.dimensions, add_values a.arr.values b.arr.values⟩
  if !a.tracked && !b.tracked then .mk r false [] none
  else .mk r true [a, b] (some .addB)

/-- Modelled from the spec: the tracked element-wise product. -/
def mulT (a b : TArr) : TArr :=
  let r : Arr := ⟨a.arr.dimensions, mul_values a.arr.values b.arr.values⟩
  if !a.tracked && !b.tracked then .mk r false [] none
  else .mk r true [a, b] (some .mulB)

/-- Modelled from the spec: the tracked matrix product (§4.3, §4.5); the
forward value is the `matmul_values` of src/src/array.rs and can panic. -/
def matmulT (a b : TArr) (a_t b_t : Bool) : Option TArr := do
  let r ← matmul_values a.arr b.arr a_t b_t
  pure (if !a.tracked && !b.tracked then .mk r false [] none
        else .mk r true [a, b] (some (.matmulB a_t b_t)))

/-- Modelled from the spec: `Array::reshape` as used by `conv` to flatten
the filters — same values under new dimensions, graph attached only when the
input is tracked. -/
def reshapeT (a : TArr) (dims : List Nat) : TArr :=
  let r : Arr := ⟨dims, a.arr.values⟩
  if !a.tracked then .mk r false [] none
  else .mk r true [a] (some (.reshapeB a.arr.dimensions))

/-- Embedding of `Array::unroll_blocks` (src/src/array/image.rs lines 4-87),
graph part: the raw result when the image is untracked, otherwise the image
as only child and the roll-back closure (which captures the image, stride
and filter dimensions) as `backward_op`. -/
def unrollT (image : TArr) (stride filter : Nat × Nat) : TArr :=
  let n := image.arr.dimensions.length
  let idims := (image.arr.dimensions.getD (n - 3) 0,
                image.arr.dimensions.getD (n - 2) 0,
                image.arr.dimensions.getD (n - 1) 0)
  let result := unroll_blocks image.arr stride filter
  if !image.tracked then .mk result false [] none
  else .mk result true [image] (some (.unrollB idims stride filter))

/-- Embedding of `Array::roll_blocks` (src/src/array/image.rs lines
89-171), graph part. -/
def rollT (unrolled : TArr) (imageDims : Nat × Nat × Nat)
    (stride filter : Nat × Nat) : TArr :=
  let result := roll_blocks unrolled.arr imageDims stride filter
  if !unrolled.tracked then .mk result false [] none
  else .mk result true [unrolled] (some (.rollB stride filter))

/-- Embedding of `Array::expand_conv` (src/src/array/image.rs lines
174-222), graph part. -/
def expandT (a : TArr) (strideCounts : Nat × Nat) : TArr :=
  let filter_count := a.arr.dimensions.getD (a.arr.dimensions.length - 1) 0
  let values_size := a.arr.values.length
  let skip_size := values_size / filter_count
  let r := expand_conv_values a.arr strideCounts
  if !a.tracked then .mk r false [] none
  else .mk r true [a] (some (.expandB values_size filter_count skip_size))

/-- Embedding of `Array::conv` (src/src/array/image.rs lines 225-271):
panics (`none`) when either operand has rank < 3, else composes
`unroll_blocks`, the filter reshape, the transposed matmul and
`expand_conv`. -/
def convT (image filters : TArr) (stride : Nat × Nat) : Option TArr := do
  let dc := image.arr.dimensions.length
  let fdc := filters.arr.dimensions.length
  if dc < 3 || fdc < 3 then none
  else do
    let d := image.arr.dimensions.getD (dc - 3) 0
    let rows := image.arr.dimensions.getD (dc - 2) 0
    let cols := image.arr.dimensions.getD (dc - 1) 0
    let fr := filters.arr.dimensions.getD (fdc - 2) 0
    let fc := filters.arr.dimensions.getD (fdc - 1) 0
    let rsc := (rows - fr) / stride.1 + 1
    let csc := (cols - fc) / stride.2 + 1
    let unrolled := unrollT image stride (fr, fc)
    let us := unrolled.arr.dimensions.getD (dc - 1 - 1) 0 / d
    let fm := reshapeT filters (filters.arr.dimensions.take (fdc - 3) ++ [us * d])
    let convolved ← matmulT unrolled fm false true
    pure (expandT convolved (rsc, csc))

/-!  Sample graphs used by several theorems below. -/

/-- The graph of `test_backward_single`: `a = [5.0]`, `b = [2.0]`,
`product = &a * &b` — node 2 is the product, its children are the leaves. -/
def storeMulScalar : Store := mulOp [leaf [1] [5], leaf [1] [2]] 0 1

/-- A graph with a shared interior node: `p = &a * &b`, `q = &p + &p`.
Node 3 (`q`) has the product node 2 (`p`) as both of its children, and `p`
has the two leaves as children. -/
def storeSharedMul : Store := addOp (mulOp [leaf [1] [5], leaf [1] [2]] 0 1) 2 2

/-- The graph of `c = &a * &b` over symbolic leaf dimensions and values:
node 2 is the product with children `[0, 1]` and the `Mul` backward
closure, exactly what `impl Mul for &Array` builds. -/
def mulStore (d : List Nat) (va vb : List Int) : Store :=
  mulOp [leaf d va, leaf d vb] 0 1

/-!
List lemmas used by the unroll/roll round-trip proof, and the round-trip
itself over arbitrary batched images.
-/

lemma flatMap_singleton_map {α : Type} (l : List Nat) (g : Nat → α) :
    l.flatMap (fun x => [g x]) = l.map g := by
  induction l with
  | nil => rfl
  | cons h t ih => simp [ih]

lemma flatMap_range_collapse {α : Type} (a b : Nat) (f : Nat → Nat → α) :
    (List.range a).flatMap (fun i => (List.range b).map (f i)) =
      (List.range (a * b)).map (fun t => f (t / b) (t % b)) := by
  induction a with
  | zero => simp
  | succ n ih =>
    rw [List.range_succ, List.flatMap_append, ih]
    have hmul : (n + 1) * b = n * b + b := by ring
    rw [hmul, List.range_add, List.map_append, List.map_map]
    congr 1
    · simp only [List.flatMap_cons, List.flatMap_nil, List.append_nil]
      apply List.map_congr_left
      intro t ht
      have htb : t < b := List.mem_range.mp ht
      have hb : 0 < b := by omega
      simp only [Function.comp]
      have hdiv : (n * b + t) / b = n := by
        rw [Nat.add_comm, Nat.mul_comm, Nat.add_mul_div_left _ _ hb,
          Nat.div_eq_of_lt htb]
        omega
      have hmod : (n * b + t) % b = t := by
        rw [Nat.add_comm, Nat.mul_comm, Nat.add_mul_mod_self_left,
          Nat.mod_eq_of_lt htb]
      rw [hdiv, hmod]

lemma set_append_len {α : Type} (l1 l2 : List α) (v : α) :
    (l1 ++ l2).set l1.length v = l1 ++ l2.set 0 v := by
  induction l1 with
  | nil => rfl
  | cons h t ih => simp [List.set, ih]

lemma set_append_of_length {α : Type} (l1 l2 : List α) (v : α) (m : Nat)
    (h : l1.length = m) : (l1 ++ l2).set m v = l1 ++ l2.set 0 v := by
  subst h
  exact set_append_len l1 l2 v

lemma foldl_set_range (g : Nat → Int) :
    ∀ (n : Nat) (acc : List Int), n ≤ acc.length →
      ((List.range n).map (fun t => ((t : Nat), g t))).foldl
          (fun l p => l.set p.1 p.2) acc =
        (List.range n).map g ++ acc.drop n := by
  intro n
  induction n with
  | zero => intro acc h; simp
  | succ m ih =>
    intro acc h
    rw [List.range_succ, List.map_append, List.foldl_append, ih acc (by omega)]
    simp only [List.map_cons, List.map_nil, List.foldl_cons, List.foldl_nil]
    rw [set_append_of_length _ _ _ _ (by simp)]
    have hm : m < acc.length := by omega
    rw [List.drop_eq_getElem_cons hm, List.set_cons_zero]
    simp

lemma getD_map_range (m q : Nat) (F : Nat → Int) (h : q < m) :
    ((List.range m).map F).getD q 0 = F q := by
  rw [List.getD_eq_getElem _ _ (by simpa using h)]
  simp

lemma map_getD_range (l : List Int) :
    (List.range l.length).map (fun t => l.getD t 0) = l := by
  apply List.ext_getElem
  · simp
  · intro i h1 h2
    simp only [List.getElem_map, List.getElem_range]
    rw [List.getD_eq_getElem _ _ h2]



lemma unrollSlice_one_rep (d r c : Nat) (hr : 0 < r) (hc : 0 < c) (s : List Int) :
    unrollSlice 1 1 1 1 d r c s =
      (List.range (r * (c * d))).map (fun t =>
        s.getD ((t % (c * d)) / d + c * (t / (c * d) + r * (t % (c * d) % d))) 0) := by
  unfold unrollSlice
  rw [Nat.div_one, Nat.div_one, Nat.sub_add_cancel hr, Nat.sub_add_cancel hc]
  simp only [flatMap_singleton_map, flatMap_range_collapse]
  simp [Nat.mod_one, Nat.mul_one, Nat.one_mul, Nat.div_one, Nat.zero_add, Nat.add_zero]



lemma unrollSlice_one_length (d r c : Nat) (hr : 0 < r) (hc : 0 < c) (s : List Int) :
    (unrollSlice 1 1 1 1 d r c s).length = r * (c * d) := by
  rw [unrollSlice_one_rep d r c hr hc s]
  simp

lemma add_mul_lt (i d j m : Nat) (hi : i < d) (hj : j < m) : i + d * j < d * m := by
  calc i + d * j < d + d * j := by omega
    _ = d * (j + 1) := by ring
    _ ≤ d * m := Nat.mul_le_mul_left d hj

lemma roll_unroll_slice (d r c : Nat) (hd : 0 < d) (hr : 0 < r) (hc : 0 < c)
    (s : List Int) (hl : s.length = d * (r * c)) :
    rollSlice d r c 1 1 1 (r * c) 1 (unrollSlice 1 1 1 1 d r c s) = s := by
  set u := unrollSlice 1 1 1 1 d r c s with hu
  unfold rollSlice rollWrites
  rw [Nat.div_one, Nat.sub_add_cancel hc]
  simp only [flatMap_singleton_map, flatMap_range_collapse]
  simp only [Nat.mod_one, Nat.mul_one, Nat.one_mul, Nat.div_one, Nat.zero_add,
    Nat.add_zero, Nat.mul_zero, Nat.zero_div, Nat.zero_mod]
  have harith : ∀ t ∈ List.range (d * (r * c)),
      ((t % (r * c) % c + c * (t % (r * c) / c) + t / (r * c) * (r * c) : Nat),
        u.getD (t / (r * c) + d * (t % (r * c))) 0) =
      ((t : Nat), u.getD (t / (r * c) + d * (t % (r * c))) 0) := by
    intro t ht
    have h1 : t % (r * c) % c + c * (t % (r * c) / c) = t % (r * c) :=
      Nat.mod_add_div _ c
    rw [h1, Nat.mod_add_div']
  rw [List.map_congr_left harith]
  rw [foldl_set_range _ _ _ (by simp)]
  simp only [List.drop_replicate, Nat.sub_self, List.replicate_zero, List.append_nil]
  have hval : ∀ t ∈ List.range (d * (r * c)),
      u.getD (t / (r * c) + d * (t % (r * c))) 0 = s.getD t 0 := by
    intro t ht
    have htn : t < d * (r * c) := List.mem_range.mp ht
    have hrc : 0 < r * c := Nat.mul_pos hr hc
    have hi : t / (r * c) < d := by
      rw [Nat.div_lt_iff_lt_mul hrc]
      calc t < d * (r * c) := htn
        _ = d * (r * c) := rfl
    have hj : t % (r * c) < r * c := Nat.mod_lt _ hrc
    set i := t / (r * c) with hi_def
    set j := t % (r * c) with hj_def
    have hjc : j % c < c := Nat.mod_lt _ hc
    rw [hu, unrollSlice_one_rep d r c hr hc s]
    rw [getD_map_range]
    swap
    · have := add_mul_lt i d j (r * c) hi hj
      calc i + d * j < d * (r * c) := this
        _ = r * (c * d) := by ring
    have hdecomp : i + d * j = (i + d * (j % c)) + (c * d) * (j / c) := by
      have h2 : c * (j / c) + j % c = j := Nat.div_add_mod j c
      calc i + d * j = i + d * (c * (j / c) + j % c) := by rw [h2]
        _ = (i + d * (j % c)) + (c * d) * (j / c) := by ring
    have hlt2 : i + d * (j % c) < c * d := by
      have h3 := add_mul_lt i d (j % c) c hi hjc
      calc i + d * (j % c) < d * c := h3
        _ = c * d := by ring
    have hcd : 0 < c * d := Nat.mul_pos hc hd
    rw [hdecomp, Nat.add_mul_mod_self_left, Nat.mod_eq_of_lt hlt2,
      Nat.add_mul_div_left _ _ hcd, Nat.div_eq_of_lt hlt2,
      Nat.add_mul_div_left _ _ hd, Nat.div_eq_of_lt hi,
      Nat.add_mul_mod_self_left, Nat.mod_eq_of_lt hi]
    congr 1
    have h4 : j % c + c * (j / c) = j := Nat.mod_add_div j c
    have h5 : j + i * (r * c) = t := Nat.mod_add_div' t (r * c)
    calc 0 + j % c + c * (0 + j / c + r * i) = j % c + c * (j / c) + c * (r * i) := by
          ring
      _ = j + c * (r * i) := by rw [h4]
      _ = j + i * (r * c) := by ring
      _ = t := h5
  rw [List.map_congr_left hval]
  have h6 : d * (r * c) = s.length := hl.symm
  rw [h6, map_getD_range]


lemma take_append_of_len {α : Type} (l1 l2 : List α) (m : Nat) (h : l1.length = m) :
    (l1 ++ l2).take m = l1 := by
  subst h; exact List.take_left l1 l2

lemma drop_append_of_len {α : Type} (l1 l2 : List α) (m : Nat) (h : l1.length = m) :
    (l1 ++ l2).drop m = l2 := by
  subst h; exact List.drop_left l1 l2


lemma slicedMap_inverse (op1 op2 : List Int → List Int) (len1 len2 : Nat)
    (hop : ∀ s : List Int, s.length = len1 → (op1 s).length = len2 ∧ op2 (op1 s) = s) :
    ∀ (b : Nat) (v : List Int), v.length = b * len1 →
      slicedMap op2 len2 b (slicedMap op1 len1 b v) = v := by
  intro b
  induction b with
  | zero =>
    intro v hv
    simp only [slicedMap]
    rw [Nat.zero_mul] at hv
    exact (List.length_eq_zero.mp hv).symm
  | succ m ih =>
    intro v hv
    have hlen1 : len1 ≤ v.length := by
      rw [hv, Nat.succ_mul]; omega
    have h1 : (v.take len1).length = len1 := by
      rw [List.length_take]; omega
    obtain ⟨hlen, hinv⟩ := hop (v.take len1) h1
    simp only [slicedMap]
    rw [take_append_of_len _ _ _ hlen, drop_append_of_len _ _ _ hlen, hinv]
    rw [ih (v.drop len1) (by rw [List.length_drop, hv, Nat.succ_mul]; omega)]
    exact List.take_append_drop len1 v


lemma getD_append_at {α : Type} (l1 l2 : List α) (dflt : α) (k : Nat) :
    (l1 ++ l2).getD (l1.length + k) dflt = l2.getD k dflt := by
  induction l1 with
  | nil => simp
  | cons h t ih =>
    simp only [List.cons_append, List.length_cons]
    rw [Nat.add_right_comm, List.getD_cons_succ]
    exact ih

lemma dims_decomp (l : List Nat) (h : 3 ≤ l.length) :
    l = l.take (l.length - 3) ++
      [l.getD (l.length - 3) 0, l.getD (l.length - 2) 0, l.getD (l.length - 1) 0] := by
  have h1 : l.length - 3 < l.length := by omega
  have h3' : l.length - 2 < l.length := by omega
  have h5 : l.length - 1 < l.length := by omega
  conv_lhs => rw [← List.take_append_drop (l.length - 3) l]
  congr 1
  rw [List.drop_eq_getElem_cons h1]
  have h2 : l.length - 3 + 1 = l.length - 2 := by omega
  rw [h2, List.drop_eq_getElem_cons h3']
  have h4 : l.length - 2 + 1 = l.length - 1 := by omega
  rw [h4, List.drop_eq_getElem_cons h5]
  have h6 : l.length - 1 + 1 = l.length := by omega
  rw [h6, List.drop_length]
  rw [List.getD_eq_getElem _ _ h1, List.getD_eq_getElem _ _ h3',
    List.getD_eq_getElem _ _ h5]

theorem unroll_roll_general (x : Arr) (d r c : Nat)
    (h3 : 3 ≤ x.dimensions.length)
    (hgd : x.dimensions.getD (x.dimensions.length - 3) 0 = d)
    (hgr : x.dimensions.getD (x.dimensions.length - 2) 0 = r)
    (hgc : x.dimensions.getD (x.dimensions.length - 1) 0 = c)
    (hd : 0 < d) (hr : 0 < r) (hc : 0 < c)
    (hlen : x.values.length = x.dimensions.prod) :
    roll_blocks (unroll_blocks x (1, 1) (1, 1)) (d, r, c) (1, 1) (1, 1) = x := by
  obtain ⟨dims, vals⟩ := x
  simp only [Arr.dimensions, Arr.values] at h3 hgd hgr hgc hlen
  have hdec := dims_decomp dims h3
  rw [hgd, hgr, hgc] at hdec
  have htk : (dims.take (dims.length - 3)).length = dims.length - 3 := by
    rw [List.length_take]; omega
  simp only [unroll_blocks, roll_blocks, Arr.dimensions, Arr.values]
  rw [hgd, hgr, hgc]
  simp only [Nat.div_one, Nat.mul_one, Nat.one_mul]
  rw [Nat.sub_add_cancel hr, Nat.sub_add_cancel hc]
  set L := dims.take (dims.length - 3) with hL
  have e1 : (L ++ [r * c, d]).length - 2 = L.length := by simp
  have e2 : (L ++ [r * c, d]).length - 1 = L.length + 1 := by simp
  rw [e1, e2]
  have e3 : (L ++ [r * c, d]).getD L.length 0 = r * c := by
    have h0 := getD_append_at L [r * c, d] 0 0
    simpa using h0
  have e4 : (L ++ [r * c, d]).getD (L.length + 1) 0 = d := by
    have h0 := getD_append_at L [r * c, d] 0 1
    simpa using h0
  rw [e3, e4, Nat.div_self hd, List.take_left]
  simp only [Arr.mk.injEq]
  constructor
  · exact hdec.symm
  · apply slicedMap_inverse
    · intro s hs
      constructor
      · rw [unrollSlice_one_length d r c hr hc s]
        ring
      · exact roll_unroll_slice d r c hd hr hc s hs
    · have hfold : List.foldl (fun acc x => acc * x) 1 L = L.prod :=
        (List.prod_eq_foldl).symm
      rw [hfold, hlen]
      conv_lhs => rw [hdec]
      rw [List.prod_append]
      simp [Nat.mul_comm, Nat.mul_assoc, Nat.mul_left_comm]

/-!  Claim theorems. -/

/-- C1: the claim states that phase 1 leaves every reachable node with
`consumer_count` equal to its number of parent edges in the traversed
subgraph, and that phase 2 visits every reachable node exactly once and
returns every `consumer_count` to zero.  The code violates this: because
`propagate_consumers` recurses into a child once per edge, a node reachable
from the root along several paths has its children's counts incremented once
per path, not once per edge.  On `p = &a * &b; q = &p + &p` phase 1 gives
the leaf `a` (node 0) `consumer_count = 2` although it has exactly one
parent edge (from `p`); in phase 2 `p` fires once and sends a single delta
to `a`'s worker, which then blocks forever waiting for a second delta — the
real `backward` never returns, and in the sequential embedding the final
state keeps `counts = [1, 1, 0, 0]` with the leaves never visited and their
gradient slots never written. -/
theorem backward_shared_interior_bug :
    propagate storeSharedMul 20 (initBS storeSharedMul).counts 3 = some [2, 2, 2, 0] ∧
    parent_edges storeSharedMul 0 = 1 ∧
    parent_edges storeSharedMul 2 = 2 ∧
    (backward storeSharedMul 20 (initBS storeSharedMul) 3 none).map
        (fun s => (s.counts, s.grads.map Option.isSome)) =
      some ([1, 1, 0, 0], [false, false, true, true]) := by
  decide

/-- C2: the claim states `backward(None)` is equivalent to
`backward(Some(ones))` on a fresh graph.  It is not: only the `None` branch
runs `propagate_consumers` (src/src/array.rs line 274), so a direct
`backward(Some(..))` on a fresh root with children spawns child workers
whose `consumer_count` is still 0, and `await_results` panics
("cannot await results from end node").  On `product = &a * &b` the seeded
call panics (`none`) while `backward(None)` completes with gradients. -/
theorem backward_seed_cex :
    backward storeMulScalar 20 (initBS storeMulScalar) 2 (some ⟨[1], [1]⟩) = none ∧
    backward storeMulScalar 20 (initBS storeMulScalar) 2 none =
      some ⟨[0, 0, 0], [some [2], some [5], none],
            [some ⟨[1], [2]⟩, some ⟨[1], [5]⟩, some ⟨[1], [1]⟩]⟩ := by
  decide

/-- C2 (amended): `backward(None)` equals running `propagate_consumers`
first and then `backward` seeded with the all-ones array of the root's
shape; in particular, whenever the root has no children the two public
calls `backward(None)` and `backward(Some(ones))` agree exactly. -/
theorem backward_none_is_propagate_then_ones :
    (∀ (store : Store) (fuel : Nat) (s : BS) (n : Nat),
      backward store fuel s n none = do
        let counts ← propagate store fuel s.counts n
        let node ← getElem? store n
        backward store fuel { s with counts := counts } n
          (some ⟨node.dimensions, List.replicate node.values.length 1⟩)) ∧
    (∀ (store : Store) (fuel : Nat) (s : BS) (n : Nat) (node : Node),
      getElem? store n = some node → node.children = [] →
      backward store fuel s n none =
        backward store fuel s n
          (some ⟨node.dimensions, List.replicate node.values.length 1⟩)) := by
  constructor
  · intro store fuel s n
    rfl
  · intro store fuel s n node hn hc
    cases fuel with
    | zero => rfl
    | succ m =>
      simp [backward, propagate, hn, hc]

/-- C2 witness for the second, hypothesis-bearing part: on a single-leaf
graph the two calls agree. -/
theorem backward_none_is_propagate_then_ones_witness :
    backward [leaf [1] [5]] 5 (initBS [leaf [1] [5]]) 0 none =
      backward [leaf [1] [5]] 5 (initBS [leaf [1] [5]]) 0 (some ⟨[1], [1]⟩) :=
  backward_none_is_propagate_then_ones.2 [leaf [1] [5]] 5 (initBS [leaf [1] [5]]) 0
    (leaf [1] [5]) rfl rfl

/-- C3: the claim calls `c.backward(Some(g))` directly on the freshly built
product graph; as for C2, that skips phase 1 and panics for every `g`
(shown here at `a = [5.0]`, `b = [2.0]`, `g = [3.0]`), so the claimed
gradients are never produced. -/
theorem mul_backward_seed_cex :
    backward (mulStore [1] [5] [2]) 20 (initBS (mulStore [1] [5] [2])) 2
      (some ⟨[1], [3]⟩) = none := by
  decide

/-- C3 (amended): for `c = &a * &b` on same-shaped leaves and any upstream
gradient `g` of `c`'s shape, running phase 1 (`propagate_consumers`) and
then `backward(Some(g))` terminates with `a.gradient = b.values ⊙ g` and
`b.gradient = a.values ⊙ g` (each under its own leaf's dimensions), the
root's gradient equal to `g`, and every `consumer_count` back at zero. -/
theorem mul_gradient_law_after_propagate (d : List Nat) (va vb vg : List Int) :
    (do
      let counts ← propagate (mulStore d va vb) 10 (initBS (mulStore d va vb)).counts 2
      backward (mulStore d va vb) 10
        { initBS (mulStore d va vb) with counts := counts } 2 (some ⟨d, vg⟩)) =
      some ⟨[0, 0, 0], [some (mul_values vb vg), some (mul_values va vg), none],
            [some ⟨d, mul_values vb vg⟩, some ⟨d, mul_values va vg⟩, some ⟨d, vg⟩]⟩ := by
  rfl

/-- C6: the spec says `roll_blocks` lets overlapping patch writes
accumulate, making it the adjoint of `unroll_blocks`.  The kernel instead
assigns (`output_slice[output_index] = ...`,
src/src/array/image.rs line 137), so a later patch overwrites an earlier
one.  Rolling the all-ones 4x4 unrolled matrix of the 2x2-filter, stride-1
unrolling of a 1x3x3 image yields all ones, while the adjoint must count
patch coverage (`[1,2,1, 2,4,2, 1,2,1]`): the centre cell receives 4
overlapping contributions and keeps only the last. -/
theorem roll_blocks_overwrites_bug :
    roll_blocks ⟨[4, 4], List.replicate 16 1⟩ (1, 3, 3) (1, 1) (2, 2) =
      ⟨[1, 3, 3], List.replicate 9 1⟩ ∧
    rollAccum_blocks ⟨[4, 4], List.replicate 16 1⟩ (1, 3, 3) (1, 1) (2, 2) =
      ⟨[1, 3, 3], [1, 2, 1, 2, 4, 2, 1, 2, 1]⟩ ∧
    (⟨[1, 3, 3], List.replicate 9 1⟩ : Arr) ≠
      ⟨[1, 3, 3], [1, 2, 1, 2, 4, 2, 1, 2, 1]⟩ := by
  decide

/-- C8: the spec says matmul fails with `DimMismatch` whenever the two
effective inner dimensions differ.  `matmul_values` performs no such check
(the panic is commented out under `TODO fix`): with `A : 2x2` and
`B : 3x2` the inner dimensions are 2 and 3, yet the product "succeeds",
silently contracting over A's inner length and reading only B's first two
rows; with `A : 2x3` and `B : 2x2` the mismatch surfaces as an
out-of-bounds index panic from the `Index` impl, not as a dimension
error. -/
theorem matmul_no_dim_check :
    sumLen ⟨[2, 2], [1, 2, 3, 4]⟩ false ≠ effRows ⟨[3, 2], [1, 2, 3, 4, 5, 6]⟩ false ∧
    matmul_values ⟨[2, 2], [1, 2, 3, 4]⟩ ⟨[3, 2], [1, 2, 3, 4, 5, 6]⟩ false false =
      some ⟨[2, 2], [7, 10, 15, 22]⟩ ∧
    matmul_values ⟨[2, 3], [1, 2, 3, 4, 5, 6]⟩ ⟨[2, 2], [1, 2, 3, 4]⟩ false false =
      none := by
  decide

/-- C9: `Array::gradient` clones and `unwrap`s the gradient slot, so on a
freshly constructed array — whose constructor writes `gradient: None` — the
call panics for every node of every graph; after a `backward` pass has
reached a node the slot is filled and the call succeeds (shown on the
product graph's leaf `a`). -/
theorem gradient_unset_panics :
    (∀ (store : Store) (n : Nat), gradientCall (initBS store) n = none) ∧
    (backward storeMulScalar 20 (initBS storeMulScalar) 2 none).map
        (fun s => gradientCall s 0) = some (some ⟨[1], [2]⟩) := by
  constructor
  · intro store n
    simp only [gradientCall, initBS, List.getD, List.getElem?_replicate]
    by_cases h : n < store.length <;> simp [h]
  · decide

/-- C10: the output dimensions of `matmul_values` are the leading batch
axes of the first operand followed by `[output_cols]` alone whenever the
effective row count is 1 (src/src/array.rs line 179) — never
`[1, output_cols]` — and the effective row count is 1 whenever the first
operand has rank < 2, so a vector-matrix product returns a rank-1 array:
`matmul(b, a, false, true)` from `test_matmul_vec` returns `arr![14, 32]`
of shape `[2]`. -/
theorem matmul_vector_output_shape :
    (∀ (a b : Arr) (a_t b_t : Bool) (r : Arr), matmul_values a b a_t b_t = some r →
      r.dimensions =
        a.dimensions.take (min a.dimensions.length b.dimensions.length - 2) ++
          (if effRows a a_t = 1 then [effCols b b_t]
           else [effRows a a_t, effCols b b_t])) ∧
    (∀ (a : Arr) (a_t : Bool), a.dimensions.length < 2 → effRows a a_t = 1) ∧
    matmul_values ⟨[1, 3], [1, 2, 3]⟩ ⟨[2, 3], [1, 2, 3, 4, 5, 6]⟩ false true =
      some ⟨[2], [14, 32]⟩ := by
  refine ⟨?_, ?_, by decide⟩
  · intro a b a_t b_t r h
    simp only [matmul_values, bind, Option.bind_eq_some, Option.pure_def,
      Option.some.injEq] at h
    obtain ⟨st, hst, hr⟩ := h
    subst hr
    simp
  · intro a a_t h
    simp [effRows, h]

/-- C10 witness: the general shape law applied at the concrete
`test_matmul_vec` product. -/
theorem matmul_vector_output_shape_witness :
    (⟨[2], [14, 32]⟩ : Arr).dimensions =
      (⟨[1, 3], [1, 2, 3]⟩ : Arr).dimensions.take
          (min (⟨[1, 3], [1, 2, 3]⟩ : Arr).dimensions.length
            (⟨[2, 3], [1, 2, 3, 4, 5, 6]⟩ : Arr).dimensions.length - 2) ++
        (if effRows ⟨[1, 3], [1, 2, 3]⟩ false = 1 then
            [effCols ⟨[2, 3], [1, 2, 3, 4, 5, 6]⟩ true]
         else [effRows ⟨[1, 3], [1, 2, 3]⟩ false,
               effCols ⟨[2, 3], [1, 2, 3, 4, 5, 6]⟩ true]) :=
  matmul_vector_output_shape.1 ⟨[1, 3], [1, 2, 3]⟩ ⟨[2, 3], [1, 2, 3, 4, 5, 6]⟩
    false true ⟨[2], [14, 32]⟩ (by decide)

/-- C4: the matmul backward projection (the closure built at
src/src/array.rs lines 202-216) produces exactly the four claimed
transpose-dependent products, and for `c = matmul(a, b, false, false)` the
backward pass delivering an upstream gradient `g` (phase 1 followed by the
seeded visit, which is how an upstream gradient ever reaches a node)
deposits `a.gradient = matmul(g, b, false, true)` and
`b.gradient = matmul(a, g, true, false)`. -/
theorem matmul_adjoint_projections :
    (∀ (c0 c1 x : Arr) (a_t b_t : Bool),
      applyBOp (.matmul a_t b_t) [c0, c1] x = do
        let delta_a ← if a_t then matmul_values c1 x b_t true
                      else matmul_values x c1 false (!b_t)
        let delta_b ← if b_t then matmul_values x c0 true a_t
                      else matmul_values c0 x (!a_t) false
        pure [delta_a, delta_b]) ∧
    (∀ (dA dB : List Nat) (vA vB : List Int),
      matmulOp [leaf dA vA, leaf dB vB] 0 1 false false =
        (matmul_values ⟨dA, vA⟩ ⟨dB, vB⟩ false false).map (fun r =>
          [leaf dA vA, leaf dB vB,
            ⟨r.dimensions, r.values, [0, 1], some (.matmul false false)⟩])) ∧
    (∀ (dA dB cdims : List Nat) (vA vB cvals : List Int) (g dAg dBg : Arr),
      matmul_values g ⟨dB, vB⟩ false true = some dAg → dAg.dimensions = dA →
      matmul_values ⟨dA, vA⟩ g true false = some dBg → dBg.dimensions = dB →
      (do
        let counts ← propagate
          [leaf dA vA, leaf dB vB, ⟨cdims, cvals, [0, 1], some (.matmul false false)⟩]
          10 (initBS [leaf dA vA, leaf dB vB,
            ⟨cdims, cvals, [0, 1], some (.matmul false false)⟩]).counts 2
        backward
          [leaf dA vA, leaf dB vB, ⟨cdims, cvals, [0, 1], some (.matmul false false)⟩]
          10 { initBS [leaf dA vA, leaf dB vB,
            ⟨cdims, cvals, [0, 1], some (.matmul false false)⟩] with counts := counts }
          2 (some g)) =
        some ⟨[0, 0, 0], [some dAg.values, some dBg.values, none],
              [some dAg, some dBg, some g]⟩) := by
  refine ⟨fun c0 c1 x a_t b_t => rfl, ?_, ?_⟩
  · intro dA dB vA vB
    simp only [matmulOp, leaf, nodeArr, dummyNode, List.getD_cons_zero, List.getD_cons_succ]
    cases matmul_values ⟨dA, vA⟩ ⟨dB, vB⟩ false false <;> rfl
  · intro dA dB cdims vA vB cvals g dAg dBg hA hdA hB hdB
    obtain ⟨dAgd, dAgv⟩ := dAg
    obtain ⟨dBgd, dBgv⟩ := dBg
    simp only [Arr.dimensions] at hdA hdB
    have hdA' := hdA.symm
    have hdB' := hdB.symm
    subst hdA'
    subst hdB'
    have hprop : propagate
        [leaf dA vA, leaf dB vB, ⟨cdims, cvals, [0, 1], some (.matmul false false)⟩]
        10 (initBS [leaf dA vA, leaf dB vB,
          ⟨cdims, cvals, [0, 1], some (.matmul false false)⟩]).counts 2 =
        some [1, 1, 0] := rfl
    rw [hprop]
    simp only [Option.bind_eq_bind, Option.some_bind]
    have hinit : initBS
        [leaf dA vA, leaf dB vB, ⟨cdims, cvals, [0, 1], some (.matmul false false)⟩] =
        ⟨[0, 0, 0], [none, none, none], [none, none, none]⟩ := rfl
    rw [hinit]
    have hap : applyBOp (.matmul false false) [⟨dA, vA⟩, ⟨dB, vB⟩] g =
        some [⟨dA, dAgv⟩, ⟨dB, dBgv⟩] := by
      simp [applyBOp, hA, hB]
    rw [show (10 : Nat) = 9 + 1 from rfl]
    simp only [backward, run, List.getElem?_cons_succ, List.getElem?_cons_zero,
      Option.bind_eq_bind, Option.some_bind, List.mapM_cons, List.mapM_nil,
      Option.map_some', Option.pure_def, nodeArr, leaf, hap]
    rfl

/-- C4 witness: the backward delivery law at `A = [[1,2],[3,4]]`,
`B = [[5,6],[7,8]]`, `g = [[1,1],[1,1]]` (the product node carries
`A*B = [[19,22],[43,50]]`). -/
theorem matmul_adjoint_projections_witness :
    (do
      let counts ← propagate
        [leaf [2, 2] [1, 2, 3, 4], leaf [2, 2] [5, 6, 7, 8],
          ⟨[2, 2], [19, 22, 43, 50], [0, 1], some (.matmul false false)⟩]
        10 (initBS [leaf [2, 2] [1, 2, 3, 4], leaf [2, 2] [5, 6, 7, 8],
          ⟨[2, 2], [19, 22, 43, 50], [0, 1], some (.matmul false false)⟩]).counts 2
      backward
        [leaf [2, 2] [1, 2, 3, 4], leaf [2, 2] [5, 6, 7, 8],
          ⟨[2, 2], [19, 22, 43, 50], [0, 1], some (.matmul false false)⟩]
        10 { initBS [leaf [2, 2] [1, 2, 3, 4], leaf [2, 2] [5, 6, 7, 8],
          ⟨[2, 2], [19, 22, 43, 50], [0, 1], some (.matmul false false)⟩] with
            counts := counts }
        2 (some ⟨[2, 2], [1, 1, 1, 1]⟩)) =
      some ⟨[0, 0, 0], [some [11, 15, 11, 15], some [4, 4, 6, 6], none],
            [some ⟨[2, 2], [11, 15, 11, 15]⟩, some ⟨[2, 2], [4, 4, 6, 6]⟩,
             some ⟨[2, 2], [1, 1, 1, 1]⟩]⟩ :=
  matmul_adjoint_projections.2.2 [2, 2] [2, 2] [2, 2] [1, 2, 3, 4] [5, 6, 7, 8]
    [19, 22, 43, 50] ⟨[2, 2], [1, 1, 1, 1]⟩ ⟨[2, 2], [11, 15, 11, 15]⟩
    ⟨[2, 2], [4, 4, 6, 6]⟩ (by decide) rfl (by decide) rfl


/-- C5: unroll followed by roll is the identity on every image of rank at
least 3 (positive trailing dimensions) for stride 1 and a non-overlapping
filter — with stride 1 the only non-overlapping filter is 1x1 — and
concretely the 2x2-filter stride-1 unrolling of the 1x3x3 image `1..9` is
the stated 4x4 matrix, whose roll returns the original image (the
overlapping writes carry equal values, so the overwrite is harmless on a
forward round-trip). -/
theorem unroll_roll_round_trip :
    (∀ (x : Arr) (d r c : Nat),
      3 ≤ x.dimensions.length →
      x.dimensions.getD (x.dimensions.length - 3) 0 = d →
      x.dimensions.getD (x.dimensions.length - 2) 0 = r →
      x.dimensions.getD (x.dimensions.length - 1) 0 = c →
      0 < d → 0 < r → 0 < c →
      x.values.length = x.dimensions.prod →
      roll_blocks (unroll_blocks x (1, 1) (1, 1)) (d, r, c) (1, 1) (1, 1) = x) ∧
    unroll_blocks ⟨[1, 3, 3], [1, 2, 3, 4, 5, 6, 7, 8, 9]⟩ (1, 1) (2, 2) =
      ⟨[4, 4], [1, 2, 4, 5, 2, 3, 5, 6, 4, 5, 7, 8, 5, 6, 8, 9]⟩ ∧
    roll_blocks ⟨[4, 4], [1, 2, 4, 5, 2, 3, 5, 6, 4, 5, 7, 8, 5, 6, 8, 9]⟩
        (1, 3, 3) (1, 1) (2, 2) =
      ⟨[1, 3, 3], [1, 2, 3, 4, 5, 6, 7, 8, 9]⟩ := by
  exact ⟨unroll_roll_general, by decide, by decide⟩

/-- C5 witness: the general round-trip applied to the 2x2x3 image with
values `0..11`. -/
theorem unroll_roll_round_trip_witness :
    roll_blocks (unroll_blocks ⟨[2, 2, 3], [0, 1, 2, 3, 4, 5, 6, 7, 8, 9, 10, 11]⟩
        (1, 1) (1, 1)) (2, 2, 3) (1, 1) (1, 1) =
      ⟨[2, 2, 3], [0, 1, 2, 3, 4, 5, 6, 7, 8, 9, 10, 11]⟩ :=
  unroll_roll_round_trip.1 ⟨[2, 2, 3], [0, 1, 2, 3, 4, 5, 6, 7, 8, 9, 10, 11]⟩ 2 2 3
    (by decide) (by decide) (by decide) (by decide) (by decide) (by decide) (by decide)
    (by decide)


lemma unrollT_untracked (x : TArr) (st fl : Nat × Nat) (h : x.tracked = false) :
    unrollT x st fl = .mk (unroll_blocks x.arr st fl) false [] none := by
  simp [unrollT, h]

lemma rollT_untracked (x : TArr) (idims : Nat × Nat × Nat) (st fl : Nat × Nat)
    (h : x.tracked = false) :
    rollT x idims st fl = .mk (roll_blocks x.arr idims st fl) false [] none := by
  simp [rollT, h]

lemma reshapeT_untracked (x : TArr) (dims : List Nat) (h : x.tracked = false) :
    reshapeT x dims = .mk ⟨dims, x.arr.values⟩ false [] none := by
  simp [reshapeT, h]

lemma expandT_untracked (x : TArr) (sc : Nat × Nat) (h : x.tracked = false) :
    expandT x sc = .mk (expand_conv_values x.arr sc) false [] none := by
  simp [expandT, h]

lemma matmulT_untracked (a b : TArr) (a_t b_t : Bool)
    (ha : a.tracked = false) (hb : b.tracked = false) :
    matmulT a b a_t b_t =
      (matmul_values a.arr b.arr a_t b_t).map (fun rv => .mk rv false [] none) := by
  simp [matmulT, ha, hb]
  cases matmul_values a.arr b.arr a_t b_t <;> rfl

/-- C7: when every input of an operator is untracked the result is the raw
output with no graph attached — empty children and no `backward_op` — for
the modelled tracked wrappers of add/mul/matmul and for the source's
`unroll_blocks`, `roll_blocks` and `conv`; and a tracked-flag vector severs
exactly the untracked slots of a backward projection (`None` there) while
tracked slots still receive gradients (shown for the unroll closure of
src/src/array/image.rs lines 71-82 and for the modelled add closure). -/
theorem untracked_ops_detached :
    (∀ a b : TArr, a.tracked = false → b.tracked = false →
      (addT a b).children = [] ∧ (addT a b).bop = none ∧
      (addT a b).arr = ⟨a.arr.dimensions, add_values a.arr.values b.arr.values⟩ ∧
      (mulT a b).children = [] ∧ (mulT a b).bop = none ∧
      (mulT a b).arr = ⟨a.arr.dimensions, mul_values a.arr.values b.arr.values⟩) ∧
    (∀ (a b : TArr) (a_t b_t : Bool) (rt : TArr),
      a.tracked = false → b.tracked = false → matmulT a b a_t b_t = some rt →
      rt.children = [] ∧ rt.bop = none ∧
      matmul_values a.arr b.arr a_t b_t = some rt.arr) ∧
    (∀ (x : TArr) (st fl : Nat × Nat), x.tracked = false →
      (unrollT x st fl).children = [] ∧ (unrollT x st fl).bop = none ∧
      (unrollT x st fl).arr = unroll_blocks x.arr st fl) ∧
    (∀ (x : TArr) (idims : Nat × Nat × Nat) (st fl : Nat × Nat), x.tracked = false →
      (rollT x idims st fl).children = [] ∧ (rollT x idims st fl).bop = none ∧
      (rollT x idims st fl).arr = roll_blocks x.arr idims st fl) ∧
    (∀ (img flt : TArr) (st : Nat × Nat) (rt : TArr),
      img.tracked = false → flt.tracked = false → convT img flt st = some rt →
      rt.children = [] ∧ rt.bop = none) ∧
    (∀ (cs : List Arr) (idims : Nat × Nat × Nat) (st fl : Nat × Nat) (x : Arr),
      applyTBOp (.unrollB idims st fl) cs [false] x = some [none] ∧
      applyTBOp (.unrollB idims st fl) cs [true] x =
        some [some (roll_blocks x idims st fl)]) ∧
    (∀ (cs : List Arr) (x : Arr),
      applyTBOp .addB cs [true, false] x =
        some [some ⟨x.dimensions, x.values⟩, none]) := by
  refine ⟨?_, ?_, ?_, ?_, ?_, ?_, ?_⟩
  · intro a b ha hb
    simp [addT, mulT, ha, hb, TArr.children, TArr.bop, TArr.arr]
  · intro a b a_t b_t rt ha hb hm
    rw [matmulT_untracked a b a_t b_t ha hb] at hm
    cases hmv : matmul_values a.arr b.arr a_t b_t with
    | none => rw [hmv] at hm; exact absurd hm (by simp)
    | some rv =>
      rw [hmv] at hm
      simp only [Option.map_some', Option.some.injEq] at hm
      subst hm
      exact ⟨rfl, rfl, rfl⟩
  · intro x st fl h
    rw [unrollT_untracked x st fl h]
    exact ⟨rfl, rfl, rfl⟩
  · intro x idims st fl h
    rw [rollT_untracked x idims st fl h]
    exact ⟨rfl, rfl, rfl⟩
  · intro img flt st rt h1 h2 hm
    obtain ⟨iarr, itr, ich, ibop⟩ := img
    obtain ⟨farr, ftr, fch, fbop⟩ := flt
    simp only [TArr.tracked] at h1 h2
    subst h1
    subst h2
    simp only [convT, TArr.arr, TArr.tracked] at hm
    split at hm
    · exact absurd hm (by simp)
    · simp only [unrollT, reshapeT, matmulT, expandT, TArr.tracked, TArr.arr,
        Bool.not_false, Bool.and_self, if_true, Option.bind_eq_bind] at hm
      simp only [Option.bind_eq_some, Option.pure_def, Option.some.injEq] at hm
      obtain ⟨cv, ⟨rv, hrv, hcv⟩, hrt⟩ := hm
      subst hcv
      simp only [TArr.tracked, Bool.not_false, if_true] at hrt
      subst hrt
      exact ⟨rfl, rfl⟩
  · intro cs idims st fl x
    exact ⟨rfl, rfl⟩
  · intro cs x
    rfl


/-- C7 witness: the detachment law applied to the untracked `test_conv`
convolution and to an untracked scalar add. -/
theorem untracked_ops_detached_witness :
    convT (.mk ⟨[1, 3, 3], [1, 2, 3, 4, 5, 6, 7, 8, 9]⟩ false [] none)
        (.mk ⟨[1, 2, 2], [3, 5, 2, 6]⟩ false [] none) (1, 1) =
      some (.mk ⟨[1, 2, 2], [51, 67, 99, 115]⟩ false [] none) ∧
    (TArr.mk ⟨[1, 2, 2], [51, 67, 99, 115]⟩ false [] none).children = [] ∧
    (TArr.mk ⟨[1, 2, 2], [51, 67, 99, 115]⟩ false [] none).bop = none ∧
    (addT (.mk ⟨[2], [1, 2]⟩ false [] none) (.mk ⟨[2], [3, 4]⟩ false [] none)).children
        = [] ∧
    (addT (.mk ⟨[2], [1, 2]⟩ false [] none) (.mk ⟨[2], [3, 4]⟩ false [] none)).bop
        = none := by
  have hconv : convT (.mk ⟨[1, 3, 3], [1, 2, 3, 4, 5, 6, 7, 8, 9]⟩ false [] none)
      (.mk ⟨[1, 2, 2], [3, 5, 2, 6]⟩ false [] none) (1, 1) =
      some (.mk ⟨[1, 2, 2], [51, 67, 99, 115]⟩ false [] none) := rfl
  have h1 := untracked_ops_detached.2.2.2.2.1
    (.mk ⟨[1, 3, 3], [1, 2, 3, 4, 5, 6, 7, 8, 9]⟩ false [] none)
    (.mk ⟨[1, 2, 2], [3, 5, 2, 6]⟩ false [] none) (1, 1)
    (.mk ⟨[1, 2, 2], [51, 67, 99, 115]⟩ false [] none) rfl rfl hconv
  have h2 := untracked_ops_detached.1 (.mk ⟨[2], [1, 2]⟩ false [] none)
    (.mk ⟨[2], [3, 4]⟩ false [] none) rfl rfl
  exact ⟨hconv, h1.1, h1.2, h2.1, h2.2.1⟩

end Corgi
